import Mathlib

/-!
Shallow embedding of the `cache-any` crate (value codec and memory backend)
and proofs of its specified laws.

Bytes are modelled as `List Nat` (each element `< 256` where produced by an
encoder).  Rust `Result` values are modelled with `Option`/`Except`; the
`unwrap` in the numeric decoder, which aborts the process on short input, is
modelled by the `none` outcome of an `Option`.
-/

set_option maxRecDepth 100000

namespace CacheAny

/-- Big-endian byte string of `n`, `k` bytes long (`byteorder::WriteBytesExt`,
`write_u128::<BigEndian>` uses `k = 16`). -/
def natToBeBytes : Nat → Nat → List Nat
  | 0, _ => []
  | k + 1, n => natToBeBytes k (n / 256) ++ [n % 256]

/-- The numeric value of a big-endian byte string
(`byteorder::ReadBytesExt::read_u128::<BigEndian>` on the bytes read). -/
def beBytesToNat (l : List Nat) : Nat :=
  l.foldl (fun acc b => acc * 256 + b) 0

/-- A built-in Rust integer type: its bit width and signedness.
`u8 … u128, i8 … i128` have widths 8, 16, 32, 64, 128; `usize`/`isize` have the
platform pointer width (16, 32 or 64). -/
structure NumTy where
  width : Nat
  signed : Bool
deriving DecidableEq, Repr

def u8Ty : NumTy := ⟨8, false⟩
def u16Ty : NumTy := ⟨16, false⟩
def i8Ty : NumTy := ⟨8, true⟩

/-- Smallest value of the type (`iN::MIN` / `uN::MIN`). -/
def NumTy.minVal (t : NumTy) : Int :=
  if t.signed then -(2 ^ (t.width - 1)) else 0

/-- Largest value of the type (`iN::MAX` / `uN::MAX`). -/
def NumTy.maxVal (t : NumTy) : Int :=
  if t.signed then 2 ^ (t.width - 1) - 1 else 2 ^ t.width - 1

/-- Predicate: `v` is representable in type `t`. -/
def NumTy.inRange (t : NumTy) (v : Int) : Prop :=
  t.minVal ≤ v ∧ v ≤ t.maxVal

instance (t : NumTy) (v : Int) : Decidable (t.inRange v) := by
  unfold NumTy.inRange; infer_instance

/-- Source `impl_numeric!` `to_bytes`: `let num = *self as u128;` then
`wtr.write_u128::<BigEndian>(num)`.  The Rust `as u128` cast of any integer
value `v` (sign-extending for signed sources) yields `v mod 2^128`. -/
def numToBytes (v : Int) : List Nat :=
  natToBeBytes 16 (v % 2 ^ 128).toNat

/-- Rust `num as $ty` for a `u128` value `num`: truncate to `t.width` bits and,
for signed targets, reinterpret the bits in twos-complement form. -/
def castToTy (t : NumTy) (num : Nat) : Int :=
  let m := num % 2 ^ t.width
  if t.signed ∧ 2 ^ (t.width - 1) ≤ m then (m : Int) - 2 ^ t.width else (m : Int)

/-- Source `impl_numeric!` `from_bytes`: `rdr.read_u128::<BigEndian>().unwrap()` then
`Ok(num as $ty)`.  `read_u128` on a cursor over `bytes` consumes the first 16
bytes and fails (UnexpectedEof) when fewer are available; the `.unwrap()` then
aborts the process, modelled here by `none`.  `some v` models `Ok(v)`. -/
def numFromBytes (t : NumTy) (bytes : List Nat) : Option Int :=
  if bytes.length < 16 then none
  else some (castToTy t (beBytesToNat (bytes.take 16)))

theorem natToBeBytes_length (k n : Nat) : (natToBeBytes k n).length = k := by
  induction k generalizing n with
  | zero => rfl
  | succ k ih => simp [natToBeBytes, ih]

theorem beBytesToNat_append_one (l : List Nat) (b : Nat) :
    beBytesToNat (l ++ [b]) = beBytesToNat l * 256 + b := by
  simp [beBytesToNat]

theorem beBytesToNat_natToBeBytes (k n : Nat) :
    beBytesToNat (natToBeBytes k n) = n % 256 ^ k := by
  induction k generalizing n with
  | zero => simp [natToBeBytes, beBytesToNat, Nat.mod_one]
  | succ k ih =>
      rw [natToBeBytes, beBytesToNat_append_one, ih]
      rw [pow_succ, Nat.mul_comm (256 ^ k) 256, Nat.mod_mul]
      ring

theorem natToBeBytes_lt (k n : Nat) : ∀ b ∈ natToBeBytes k n, b < 256 := by
  induction k generalizing n with
  | zero => simp [natToBeBytes]
  | succ k ih =>
      intro b hb
      rw [natToBeBytes] at hb
      rcases List.mem_append.mp hb with h | h
      · exact ih _ _ h
      · simp at h; omega

theorem castToTy_asU128 (t : NumTy) (v : Int) (hw : 0 < t.width)
    (hw128 : t.width ≤ 128) (hv : t.inRange v) :
    castToTy t (v % 2 ^ 128).toNat = v := by
  obtain ⟨h1, h2⟩ := hv
  have hppos : (0:Int) < 2 ^ (t.width - 1) := by positivity
  have hnn : 0 ≤ v % 2 ^ 128 := Int.emod_nonneg v (by positivity)
  have hmcast : (((v % 2 ^ 128).toNat : Int)) = v % 2 ^ 128 := Int.toNat_of_nonneg hnn
  have hdvd : ((2:Int) ^ t.width) ∣ 2 ^ 128 := pow_dvd_pow 2 hw128
  have hc2 : (((2:Nat) ^ t.width : Nat) : Int) = 2 ^ t.width := by push_cast; ring
  have key : (((v % 2 ^ 128).toNat % 2 ^ t.width : Nat) : Int) = v % 2 ^ t.width := by
    rw [Int.natCast_mod, hmcast, hc2]
    exact Int.emod_emod_of_dvd v hdvd
  have hwsplit : (2:Int) ^ t.width = 2 * 2 ^ (t.width - 1) := by
    conv_lhs => rw [show t.width = (t.width - 1) + 1 by omega]
    rw [pow_succ]; ring
  have hmod : v % 2 ^ t.width = if 0 ≤ v then v else v + 2 ^ t.width := by
    rcases le_or_lt 0 v with hge | hlt
    · rw [if_pos hge]
      apply Int.emod_eq_of_lt hge
      rcases Bool.eq_false_or_eq_true t.signed with hs | hs <;>
        simp [NumTy.maxVal, hs] at h2 <;> omega
    · rw [if_neg (by omega)]
      have hsg : t.signed = true := by
        by_contra hns
        simp [NumTy.minVal, Bool.not_eq_true] at h1 hns
        rw [hns] at h1; simp at h1; omega
      rw [NumTy.minVal, if_pos hsg] at h1
      have hb : (v + 2 ^ t.width * 1) % 2 ^ t.width = v % 2 ^ t.width :=
        Int.add_mul_emod_self_left v (2 ^ t.width) 1
      rw [← hb, mul_one]
      apply Int.emod_eq_of_lt (by omega) (by omega)
  simp only [castToTy]
  split_ifs with hcond
  · obtain ⟨hsg, hge⟩ := hcond
    have hgeInt : (2:Int) ^ (t.width - 1) ≤ v % 2 ^ t.width := by
      rw [← key]; exact_mod_cast Nat.cast_le.mpr hge
    rw [NumTy.minVal, if_pos hsg] at h1
    rw [NumTy.maxVal, if_pos hsg] at h2
    rw [key, hmod]
    rw [hmod] at hgeInt
    split_ifs at hgeInt ⊢ with h0 <;> omega
  · rw [key, hmod]
    rcases le_or_lt 0 v with hge | hlt
    · rw [if_pos hge]
    · exfalso
      have hsg : t.signed = true := by
        by_contra hns
        simp [NumTy.minVal, Bool.not_eq_true] at h1 hns
        rw [hns] at h1; simp at h1; omega
      rw [NumTy.minVal, if_pos hsg] at h1
      apply hcond
      refine ⟨hsg, ?_⟩
      have hgeInt : (2:Int) ^ (t.width - 1) ≤
          (((v % 2 ^ 128).toNat % 2 ^ t.width : Nat) : Int) := by
        rw [key, hmod, if_neg (by omega)]; omega
      exact_mod_cast hgeInt

theorem num_round_trip (t : NumTy) (v : Int) (hw : 0 < t.width)
    (hw128 : t.width ≤ 128) (hv : t.inRange v) :
    numFromBytes t (numToBytes v) = some v := by
  unfold numFromBytes numToBytes
  rw [if_neg (by rw [natToBeBytes_length]; omega)]
  rw [List.take_of_length_le (by rw [natToBeBytes_length])]
  rw [beBytesToNat_natToBeBytes]
  have h256 : (256:Nat) ^ 16 = 2 ^ 128 := by norm_num
  have hpos : (0:Int) < 2 ^ 128 := by positivity
  have hlt : v % 2 ^ 128 < 2 ^ 128 := Int.emod_lt_of_pos v hpos
  have hnn : 0 ≤ v % 2 ^ 128 := Int.emod_nonneg v (by positivity)
  have htnI : ((v % 2 ^ 128).toNat : Int) < 2 ^ 128 := by
    rw [Int.toNat_of_nonneg hnn]; exact hlt
  have htn : (v % 2 ^ 128).toNat < 2 ^ 128 := by exact_mod_cast htnI
  rw [h256, Nat.mod_eq_of_lt htn, castToTy_asU128 t v hw hw128 hv]

/-- Source `impl Cacheable for bool`, `to_bytes`: `Cacheable::to_bytes(&1)` /
`Cacheable::to_bytes(&0)` — the 16-byte numeric encoding of 1 or 0. -/
def boolToBytes (b : Bool) : List Nat :=
  if b then numToBytes 1 else numToBytes 0

/-- Source `impl Cacheable for bool`, `from_bytes`:
`Ok(!bytes.iter().all(|byte| *byte == 0))` — total, never fails. -/
def boolFromBytes (bytes : List Nat) : Option Bool :=
  some (!bytes.all (· == 0))

/-- Keys of `MemoryCache`: the UTF-8 bytes of the `&str` key
(`key.as_bytes().to_vec()`). -/
abbrev Key := List Nat

/-- The `HashMap<Vec<u8>, Vec<u8>>` inside `MemoryCache`, modelled as an
association list whose keys are pairwise distinct (`Mem.WF`). -/
abbrev Mem := List (Key × List Nat)

/-- Model of `HashMap::get`. -/
def assocGet : Mem → Key → Option (List Nat)
  | [], _ => none
  | (k1, v) :: rest, k => if k1 = k then some v else assocGet rest k

/-- Model of `HashMap::insert`: replace the value of an existing key, else add the
entry. -/
def assocInsert : Mem → Key → List Nat → Mem
  | [], k, v => [(k, v)]
  | (k1, v1) :: rest, k, v =>
      if k1 = k then (k, v) :: rest else (k1, v1) :: assocInsert rest k v

/-- Model of `HashMap::remove` (value discarded). -/
def assocRemove : Mem → Key → Mem
  | [], _ => []
  | (k1, v1) :: rest, k => if k1 = k then rest else (k1, v1) :: assocRemove rest k

/-- The hash-map invariant: each key occurs at most once. -/
def Mem.WF (m : Mem) : Prop := (m.map Prod.fst).Nodup

instance (m : Mem) : Decidable m.WF := by unfold Mem.WF; infer_instance

/-- Source `MemoryCache::get`: read-lock, look up the raw bytes, decode via
`T::from_bytes`, `transpose()?`.  In the result pair `(r, m)`, `r = none`
models a propagated decode failure, `some none` models `Ok(None)` (absent
key), `some (some x)` models `Ok(Some(x))`; the map is returned unchanged
(the method takes `&self` and only reads under the lock). -/
def memGet (dec : List Nat → Option α) (m : Mem) (k : Key) :
    Option (Option α) × Mem :=
  (match assocGet m k with
   | none => some none
   | some bytes => (dec bytes).map some, m)

/-- Source `MemoryCache::set`: write-lock, `inner.insert(key_bytes, value.to_bytes())`,
then `Ok(())`. -/
def memSet (m : Mem) (k : Key) (bytes : List Nat) : Except Unit Unit × Mem :=
  (Except.ok (), assocInsert m k bytes)

/-- Source `MemoryCache::delete`: write-lock, `inner.remove(key_bytes)`, then
`Ok(())` whether or not the key was present. -/
def memDelete (m : Mem) (k : Key) : Except Unit Unit × Mem :=
  (Except.ok (), assocRemove m k)

/-- Source `MemoryCache::len`: read-lock, `inner.len()`; the map is unchanged. -/
def memLen (m : Mem) : Nat × Mem := (m.length, m)

theorem assocGet_insert_self (m : Mem) (k : Key) (v : List Nat) :
    assocGet (assocInsert m k v) k = some v := by
  induction m with
  | nil => simp [assocInsert, assocGet]
  | cons hd rest ih =>
      obtain ⟨k1, v1⟩ := hd
      by_cases h : k1 = k
      · simp [assocInsert, assocGet, h]
      · simp [assocInsert, assocGet, h, ih]

theorem assocGet_insert_ne (m : Mem) (k k' : Key) (v : List Nat) (h : k' ≠ k) :
    assocGet (assocInsert m k v) k' = assocGet m k' := by
  have hkk : k ≠ k' := Ne.symm h
  induction m with
  | nil => simp [assocInsert, assocGet, hkk]
  | cons hd rest ih =>
      obtain ⟨k1, v1⟩ := hd
      by_cases h1 : k1 = k
      · subst h1
        simp [assocInsert, assocGet, hkk]
      · simp only [assocInsert, if_neg h1, assocGet]
        by_cases h2 : k1 = k' <;> simp [h2, ih]

theorem length_assocInsert_present (m : Mem) (k : Key) (v : List Nat)
    (h : (assocGet m k).isSome) :
    (assocInsert m k v).length = m.length := by
  induction m with
  | nil => simp [assocGet] at h
  | cons hd rest ih =>
      obtain ⟨k1, v1⟩ := hd
      by_cases h1 : k1 = k
      · simp [assocInsert, h1]
      · simp only [assocGet, if_neg h1] at h
        simp [assocInsert, if_neg h1, ih h]

theorem assocGet_eq_none_of_not_mem (m : Mem) (k : Key)
    (h : k ∉ m.map Prod.fst) : assocGet m k = none := by
  induction m with
  | nil => rfl
  | cons hd rest ih =>
      obtain ⟨k1, v1⟩ := hd
      simp only [List.map_cons, List.mem_cons] at h
      push_neg at h
      simp [assocGet, Ne.symm h.1, ih h.2]

theorem assocGet_remove_self (m : Mem) (k : Key) (hwf : m.WF) :
    assocGet (assocRemove m k) k = none := by
  induction m with
  | nil => rfl
  | cons hd rest ih =>
      obtain ⟨k1, v1⟩ := hd
      rw [Mem.WF, List.map_cons, List.nodup_cons] at hwf
      by_cases h1 : k1 = k
      · subst h1
        simp only [assocRemove, if_pos rfl]
        exact assocGet_eq_none_of_not_mem rest k1 hwf.1
      · simp [assocRemove, assocGet, h1, ih hwf.2]

theorem assocGet_remove_ne (m : Mem) (k k' : Key) (h : k' ≠ k) :
    assocGet (assocRemove m k) k' = assocGet m k' := by
  induction m with
  | nil => rfl
  | cons hd rest ih =>
      obtain ⟨k1, v1⟩ := hd
      by_cases h1 : k1 = k
      · subst h1
        simp [assocRemove, assocGet, Ne.symm h]
      · simp only [assocRemove, if_neg h1, assocGet]
        by_cases h2 : k1 = k' <;> simp [h2, ih]

theorem assocRemove_absent (m : Mem) (k : Key) (h : assocGet m k = none) :
    assocRemove m k = m := by
  induction m with
  | nil => rfl
  | cons hd rest ih =>
      obtain ⟨k1, v1⟩ := hd
      by_cases h1 : k1 = k
      · simp [assocGet, h1] at h
      · simp only [assocGet, if_neg h1] at h
        simp [assocRemove, if_neg h1, ih h]

theorem mem_keys_assocInsert (m : Mem) (k a : Key) (v : List Nat) :
    a ∈ (assocInsert m k v).map Prod.fst ↔ a ∈ m.map Prod.fst ∨ a = k := by
  induction m with
  | nil => simp [assocInsert]
  | cons hd rest ih =>
      obtain ⟨k1, v1⟩ := hd
      by_cases h1 : k1 = k
      · subst h1
        simp [assocInsert]
        tauto
      · simp only [assocInsert, if_neg h1, List.map_cons, List.mem_cons, ih]
        tauto

theorem Mem.WF_insert (m : Mem) (k : Key) (v : List Nat) (hwf : m.WF) :
    (assocInsert m k v).WF := by
  induction m with
  | nil => simp [assocInsert, Mem.WF]
  | cons hd rest ih =>
      obtain ⟨k1, v1⟩ := hd
      rw [Mem.WF, List.map_cons, List.nodup_cons] at hwf
      by_cases h1 : k1 = k
      · subst h1
        rw [Mem.WF, assocInsert, if_pos rfl, List.map_cons, List.nodup_cons]
        exact hwf
      · rw [Mem.WF, assocInsert, if_neg h1, List.map_cons, List.nodup_cons]
        refine ⟨?_, ih hwf.2⟩
        rw [mem_keys_assocInsert]
        push_neg
        exact ⟨hwf.1, h1⟩

/-- A Unicode scalar value — what a Rust `char` may hold.  A Rust `String` is
modelled by the list of scalar values of its characters. -/
def ScalarValue (c : Nat) : Prop := c < 0x110000 ∧ ¬(0xD800 ≤ c ∧ c < 0xE000)

instance (c : Nat) : Decidable (ScalarValue c) := by
  unfold ScalarValue; infer_instance

/-- Every character of `s` is a Unicode scalar value. -/
def ValidString (s : List Nat) : Prop := ∀ c ∈ s, ScalarValue c

instance (s : List Nat) : Decidable (ValidString s) := by
  unfold ValidString; infer_instance

/-- The UTF-8 encoding of one scalar value (1–4 bytes). -/
def utf8EncodeChar (c : Nat) : List Nat :=
  if c < 0x80 then [c]
  else if c < 0x800 then [0xC0 + c / 64, 0x80 + c % 64]
  else if c < 0x10000 then
    [0xE0 + c / 4096, 0x80 + c / 64 % 64, 0x80 + c % 64]
  else
    [0xF0 + c / 262144, 0x80 + c / 4096 % 64, 0x80 + c / 64 % 64, 0x80 + c % 64]

/-- The byte content of a Rust `String` (`String::as_bytes`): the
concatenation of the UTF-8 encodings of its characters. -/
def utf8Encode (s : List Nat) : List Nat := (s.map utf8EncodeChar).flatten

/-- UTF-8 continuation byte check (`0x80..=0xBF`). -/
def isCont (b : Nat) : Bool := decide (0x80 ≤ b ∧ b ≤ 0xBF)

/-- Admissible second byte given the lead byte `b0`, following the UTF-8
validation table of Rust std (`core::str::validations::run_utf8_validation`): the
narrowed ranges for `0xE0`/`0xED`/`0xF0`/`0xF4` reject overlong encodings and
surrogates. -/
def validSnd (b0 b1 : Nat) : Bool :=
  if b0 = 0xE0 then decide (0xA0 ≤ b1 ∧ b1 ≤ 0xBF)
  else if b0 = 0xED then decide (0x80 ≤ b1 ∧ b1 ≤ 0x9F)
  else if b0 = 0xF0 then decide (0x90 ≤ b1 ∧ b1 ≤ 0xBF)
  else if b0 = 0xF4 then decide (0x80 ≤ b1 ∧ b1 ≤ 0x8F)
  else decide (0x80 ≤ b1 ∧ b1 ≤ 0xBF)

/-- Decode one UTF-8-encoded character from the front of `l`, following Rust
the validation in Rust std (`core::str::validations::next_code_point` guarded by the
checks of `run_utf8_validation`): returns the scalar value and the remaining
bytes, or `none` if no well-formed character starts `l`. -/
def utf8DecodeChar1 (l : List Nat) : Option (Nat × List Nat) :=
  match l with
  | [] => none
  | b0 :: rest =>
    if b0 < 0x80 then some (b0, rest)
    else if 0xC2 ≤ b0 ∧ b0 ≤ 0xDF then
      match rest with
      | b1 :: rest1 =>
          if isCont b1 then some ((b0 - 0xC0) * 64 + (b1 - 0x80), rest1)
          else none
      | [] => none
    else if 0xE0 ≤ b0 ∧ b0 ≤ 0xEF then
      match rest with
      | b1 :: b2 :: rest2 =>
          if validSnd b0 b1 ∧ isCont b2 then
            some ((b0 - 0xE0) * 4096 + (b1 - 0x80) * 64 + (b2 - 0x80), rest2)
          else none
      | _ => none
    else if 0xF0 ≤ b0 ∧ b0 ≤ 0xF4 then
      match rest with
      | b1 :: b2 :: b3 :: rest3 =>
          if validSnd b0 b1 ∧ isCont b2 ∧ isCont b3 then
            some ((b0 - 0xF0) * 262144 + (b1 - 0x80) * 4096 +
              (b2 - 0x80) * 64 + (b3 - 0x80), rest3)
          else none
      | _ => none
    else none

/-- UTF-8 validation and decoding loop; `fuel` bounds the number of decoded
characters (each character consumes at least one byte, so any
`fuel ≥ l.length` gives the untruncated result). -/
def utf8DecodeFuel : Nat → List Nat → Option (List Nat)
  | _, [] => some []
  | 0, _ => none
  | fuel + 1, b0 :: rest =>
    match utf8DecodeChar1 (b0 :: rest) with
    | some (c, rest1) => (utf8DecodeFuel fuel rest1).map (c :: ·)
    | none => none

/-- Model of `String::from_utf8(bytes.to_vec())`: UTF-8 validation and reconstruction
of the character sequence; `none` models `Err(FromUtf8Error)`. -/
def utf8Decode (l : List Nat) : Option (List Nat) :=
  utf8DecodeFuel l.length l

theorem isCont_true_iff (b : Nat) : isCont b = true ↔ 0x80 ≤ b ∧ b ≤ 0xBF := by
  simp [isCont]

theorem validSnd_true_iff (b0 b1 : Nat) : validSnd b0 b1 = true ↔
    (b0 = 0xE0 ∧ 0xA0 ≤ b1 ∧ b1 ≤ 0xBF) ∨
    (b0 = 0xED ∧ 0x80 ≤ b1 ∧ b1 ≤ 0x9F) ∨
    (b0 = 0xF0 ∧ 0x90 ≤ b1 ∧ b1 ≤ 0xBF) ∨
    (b0 = 0xF4 ∧ 0x80 ≤ b1 ∧ b1 ≤ 0x8F) ∨
    (b0 ≠ 0xE0 ∧ b0 ≠ 0xED ∧ b0 ≠ 0xF0 ∧ b0 ≠ 0xF4 ∧
      0x80 ≤ b1 ∧ b1 ≤ 0xBF) := by
  unfold validSnd
  split_ifs with e0 ed f0 f4 <;> simp [*]

theorem utf8EncodeChar_length_pos (c : Nat) : 0 < (utf8EncodeChar c).length := by
  unfold utf8EncodeChar
  split_ifs <;> simp

theorem utf8DecodeChar1_encodeChar (c : Nat) (hc : ScalarValue c)
    (tail : List Nat) :
    utf8DecodeChar1 (utf8EncodeChar c ++ tail) = some (c, tail) := by
  obtain ⟨hlt, hsur⟩ := hc
  by_cases h1 : c < 0x80
  · rw [utf8EncodeChar, if_pos h1]
    simp only [List.cons_append, List.nil_append, utf8DecodeChar1]
    rw [if_pos h1]
  by_cases h2 : c < 0x800
  · rw [utf8EncodeChar, if_neg h1, if_pos h2]
    simp only [List.cons_append, List.nil_append, utf8DecodeChar1]
    rw [if_neg (by omega), if_pos (by omega),
      if_pos (by rw [isCont_true_iff]; omega)]
    simp only [Option.some.injEq, Prod.mk.injEq]
    exact ⟨by omega, trivial⟩
  by_cases h3 : c < 0x10000
  · rw [utf8EncodeChar, if_neg h1, if_neg h2, if_pos h3]
    simp only [List.cons_append, List.nil_append, utf8DecodeChar1]
    rw [if_neg (by omega), if_neg (by omega), if_pos (by omega)]
    rw [if_pos ?_]
    · simp only [Option.some.injEq, Prod.mk.injEq]
      exact ⟨by omega, trivial⟩
    · refine ⟨?_, by rw [isCont_true_iff]; omega⟩
      rw [validSnd_true_iff]
      by_cases he0 : c / 4096 = 0
      · exact Or.inl ⟨by omega, by omega, by omega⟩
      by_cases hed : c / 4096 = 13
      · exact Or.inr (Or.inl ⟨by omega, by omega, by omega⟩)
      · exact Or.inr (Or.inr (Or.inr (Or.inr
          ⟨by omega, by omega, by omega, by omega, by omega, by omega⟩)))
  · rw [utf8EncodeChar, if_neg h1, if_neg h2, if_neg h3]
    simp only [List.cons_append, List.nil_append, utf8DecodeChar1]
    rw [if_neg (by omega), if_neg (by omega), if_neg (by omega),
      if_pos (by omega)]
    rw [if_pos ?_]
    · simp only [Option.some.injEq, Prod.mk.injEq]
      exact ⟨by omega, trivial⟩
    · refine ⟨?_, by rw [isCont_true_iff]; omega,
        by rw [isCont_true_iff]; omega⟩
      rw [validSnd_true_iff]
      by_cases hf0 : c / 262144 = 0
      · exact Or.inr (Or.inr (Or.inl ⟨by omega, by omega, by omega⟩))
      by_cases hf4 : c / 262144 = 4
      · exact Or.inr (Or.inr (Or.inr (Or.inl ⟨by omega, by omega, by omega⟩)))
      · exact Or.inr (Or.inr (Or.inr (Or.inr
          ⟨by omega, by omega, by omega, by omega, by omega, by omega⟩)))

theorem utf8DecodeChar1_sound {l : List Nat} {c : Nat} {rest : List Nat}
    (h : utf8DecodeChar1 l = some (c, rest)) :
    ScalarValue c ∧ l = utf8EncodeChar c ++ rest := by
  rcases l with _ | ⟨b0, _ | ⟨b1, _ | ⟨b2, _ | ⟨b3, tl⟩⟩⟩⟩
  · simp [utf8DecodeChar1] at h
  all_goals (
    simp only [utf8DecodeChar1] at h
    split_ifs at h
    all_goals simp only [isCont_true_iff, validSnd_true_iff] at *
    all_goals (
      simp only [Option.some.injEq, Prod.mk.injEq] at h
      obtain ⟨rfl, rfl⟩ := h
      refine ⟨⟨by omega, by omega⟩, ?_⟩
      rw [utf8EncodeChar]
      split_ifs
      all_goals (try (exfalso; omega))
      all_goals (
        simp only [List.cons_append, List.nil_append, List.cons.injEq]
        try (and_intros <;> first | omega | rfl | trivial))))

theorem utf8DecodeFuel_encode (s : List Nat) (hs : ValidString s) :
    ∀ fuel, (utf8Encode s).length ≤ fuel →
      utf8DecodeFuel fuel (utf8Encode s) = some s := by
  induction s with
  | nil => intro fuel _; cases fuel <;> rfl
  | cons c s1 ih =>
      intro fuel hfuel
      have hc : ScalarValue c := hs c (List.mem_cons_self c s1)
      have hs1 : ValidString s1 := fun x hx => hs x (List.mem_cons_of_mem c hx)
      have henc : utf8Encode (c :: s1) = utf8EncodeChar c ++ utf8Encode s1 := by
        simp [utf8Encode]
      have hpos := utf8EncodeChar_length_pos c
      rw [henc] at hfuel ⊢
      rw [List.length_append] at hfuel
      obtain ⟨f, rfl⟩ : ∃ f, fuel = f + 1 := ⟨fuel - 1, by omega⟩
      obtain ⟨b0, bs, hb⟩ : ∃ b0 bs, utf8EncodeChar c = b0 :: bs := by
        cases hE : utf8EncodeChar c with
        | nil => rw [hE] at hpos; simp at hpos
        | cons b0 bs => exact ⟨b0, bs, rfl⟩
      rw [hb, List.cons_append, utf8DecodeFuel,
        ← List.cons_append, ← hb, utf8DecodeChar1_encodeChar c hc]
      show (utf8DecodeFuel f (utf8Encode s1)).map (c :: ·) = some (c :: s1)
      rw [ih hs1 f (by omega)]
      rfl

theorem utf8DecodeFuel_sound :
    ∀ fuel l s, utf8DecodeFuel fuel l = some s →
      ValidString s ∧ utf8Encode s = l := by
  intro fuel
  induction fuel with
  | zero =>
      intro l s h
      cases l with
      | nil =>
          cases h
          exact ⟨fun c hc => absurd hc (List.not_mem_nil c), rfl⟩
      | cons b0 rest => exact Option.noConfusion h
  | succ f ih =>
      intro l s h
      cases l with
      | nil =>
          cases h
          exact ⟨fun c hc => absurd hc (List.not_mem_nil c), rfl⟩
      | cons b0 rest =>
          rw [utf8DecodeFuel] at h
          cases hd : utf8DecodeChar1 (b0 :: rest) with
          | none => rw [hd] at h; exact Option.noConfusion h
          | some p =>
              obtain ⟨c, rest1⟩ := p
              rw [hd] at h
              simp only [Option.map_eq_some'] at h
              obtain ⟨s1, hs1, rfl⟩ := h
              obtain ⟨hc, hl⟩ := utf8DecodeChar1_sound hd
              obtain ⟨hvs1, henc1⟩ := ih rest1 s1 hs1
              refine ⟨?_, ?_⟩
              · intro x hx
                rcases List.mem_cons.mp hx with rfl | hx1
                · exact hc
                · exact hvs1 x hx1
              · rw [utf8Encode, List.map_cons, List.flatten_cons, ← utf8Encode,
                  henc1, hl]

theorem utf8Decode_iff (l : List Nat) (s : List Nat) :
    utf8Decode l = some s ↔ ValidString s ∧ utf8Encode s = l := by
  constructor
  · exact utf8DecodeFuel_sound l.length l s
  · rintro ⟨hs, rfl⟩
    exact utf8DecodeFuel_encode s hs _ le_rfl

/-- Source `impl Cacheable for String`, `to_bytes`: `self.as_bytes().to_vec()` — a
Rust `String` stores exactly the UTF-8 encoding of its characters, so its
byte form is that encoding, unmodified. -/
def stringToBytes (s : List Nat) : List Nat := utf8Encode s

/-- Source `impl Cacheable for String`, `from_bytes`:
`Ok(Self::from_utf8(bytes.to_vec())?)` — UTF-8 validation, propagating the
`FromUtf8Error` on invalid input. -/
def stringFromBytes (bytes : List Nat) : Option (List Nat) := utf8Decode bytes

/-- Lowercase hex digit character for `n < 16` (`hex::encode`). -/
def hexDigit (n : Nat) : Nat := if n < 10 then 48 + n else 87 + n

/-- Model of `hex::encode`: each byte becomes two lowercase hex digit characters. -/
def hexEncode (bytes : List Nat) : List Nat :=
  (bytes.map (fun b => [hexDigit (b / 16), hexDigit (b % 16)])).flatten

/-- Value of one hex digit character (`hex::decode` accepts both cases). -/
def hexDigitVal (c : Nat) : Option Nat :=
  if 48 ≤ c ∧ c ≤ 57 then some (c - 48)
  else if 97 ≤ c ∧ c ≤ 102 then some (c - 87)
  else if 65 ≤ c ∧ c ≤ 70 then some (c - 55)
  else none

/-- Model of `hex::decode`: pairs of hex digit characters to bytes; fails on an
odd-length input or an invalid digit. -/
def hexDecode : List Nat → Option (List Nat)
  | [] => some []
  | [_] => none
  | c1 :: c2 :: rest =>
    match hexDigitVal c1, hexDigitVal c2, hexDecode rest with
    | some hi, some lo, some bs => some ((hi * 16 + lo) :: bs)
    | _, _, _ => none

/-- Source `Cacheable::to_hex` (default method): `hex::encode(self.to_bytes())`,
with `enc` being the `to_bytes` of the type. -/
def toHex (enc : α → List Nat) (v : α) : List Nat := hexEncode (enc v)

/-- Source `Cacheable::from_hex` (default method): `hex::decode(hex)?` then
`Self::from_bytes(&bytes)`, with `dec` being the `from_bytes` of the type. -/
def fromHex (dec : List Nat → Option α) (l : List Nat) : Option α :=
  (hexDecode l).bind dec

theorem hexDigitVal_hexDigit (n : Nat) (h : n < 16) :
    hexDigitVal (hexDigit n) = some n := by
  unfold hexDigit hexDigitVal
  split_ifs <;>
    first
      | (simp only [Option.some.injEq]; omega)
      | (exfalso; omega)

theorem hexDecode_hexEncode (bytes : List Nat) (hb : ∀ b ∈ bytes, b < 256) :
    hexDecode (hexEncode bytes) = some bytes := by
  induction bytes with
  | nil => rfl
  | cons b rest ih =>
      have hb0 : b < 256 := hb b (List.mem_cons_self b rest)
      have hrest : ∀ x ∈ rest, x < 256 :=
        fun x hx => hb x (List.mem_cons_of_mem b hx)
      show hexDecode
        (hexDigit (b / 16) :: hexDigit (b % 16) :: hexEncode rest) = _
      rw [hexDecode, hexDigitVal_hexDigit _ (by omega),
        hexDigitVal_hexDigit _ (by omega), ih hrest]
      simp only [Option.some.injEq, List.cons.injEq]
      exact ⟨by omega, trivial⟩

theorem numToBytes_lt (v : Int) : ∀ b ∈ numToBytes v, b < 256 :=
  natToBeBytes_lt 16 _

theorem boolToBytes_lt (b : Bool) : ∀ x ∈ boolToBytes b, x < 256 := by
  cases b <;> exact numToBytes_lt _

theorem utf8EncodeChar_lt (c : Nat) (hc : c < 0x110000) :
    ∀ b ∈ utf8EncodeChar c, b < 256 := by
  intro b hb
  unfold utf8EncodeChar at hb
  split_ifs at hb <;> simp at hb <;> omega

theorem utf8Encode_lt (s : List Nat) (hs : ValidString s) :
    ∀ b ∈ utf8Encode s, b < 256 := by
  intro b hb
  rw [utf8Encode] at hb
  simp only [List.mem_flatten, List.mem_map] at hb
  obtain ⟨chunk, ⟨c, hcs, rfl⟩, hbc⟩ := hb
  exact utf8EncodeChar_lt c (hs c hcs).1 b hbc

theorem bool_round_trip (b : Bool) : boolFromBytes (boolToBytes b) = some b := by
  cases b <;> decide

theorem string_round_trip (s : List Nat) (hs : ValidString s) :
    stringFromBytes (stringToBytes s) = some s := by
  rw [stringFromBytes, stringToBytes]
  exact (utf8Decode_iff _ s).mpr ⟨hs, rfl⟩

/-- C1: for built-in integer types, `from_bytes` on fewer than 16 bytes is
claimed to fail with a reported decode error rather than abort.  On the code
this fails: the `.unwrap()` aborts the process (modelled by the `none`
outcome), shown here on a 15-byte input; decoding succeeds exactly on inputs
of at least 16 bytes. -/
theorem C1_short_input_aborts :
    numFromBytes u8Ty (List.replicate 15 0) = none ∧
    ∀ (t : NumTy) (bytes : List Nat),
      (numFromBytes t bytes).isSome = decide (16 ≤ bytes.length) := by
  refine ⟨by decide, ?_⟩
  intro t bytes
  rw [numFromBytes]
  split_ifs with h <;> simp <;> omega

/-- C2: for every supported integer type (width 1–128 covers u8 … u128,
i8 … i128 and the pointer-sized types) and every representable value `v`,
`from_bytes (to_bytes v) = Ok v`, and the encoding is exactly 16 bytes. -/
theorem C2_numeric_round_trip (t : NumTy) (v : Int) (hw : 0 < t.width)
    (hw128 : t.width ≤ 128) (hv : t.inRange v) :
    numFromBytes t (numToBytes v) = some v ∧ (numToBytes v).length = 16 :=
  ⟨num_round_trip t v hw hw128 hv, natToBeBytes_length 16 _⟩

/-- Witness for C2 at `i8`, `v = -3`. -/
theorem C2_numeric_round_trip_witness :
    numFromBytes i8Ty (numToBytes (-3)) = some (-3) ∧
      (numToBytes (-3)).length = 16 :=
  C2_numeric_round_trip i8Ty (-3) (by decide) (by decide) (by decide)

/-- C3: storing the `u8` value 1 under a key in the memory backend and
retrieving that key as `u16` yields `Ok(Some(1))`, for any prior cache state
and any key. -/
theorem C3_cross_width_get (m : Mem) (k : Key) :
    (memGet (numFromBytes u16Ty) (memSet m k (numToBytes 1)).2 k).1 =
      some (some 1) := by
  simp only [memSet, memGet, assocGet_insert_self]
  rw [show numFromBytes u16Ty (numToBytes 1) = some 1 by decide]
  rfl

/-- C4: last-write-wins in the memory backend: after `set k v1; set k v2`,
`get k` returns `Ok(Some(v2))` (for any codec that round-trips `v2`), and the
second `set` leaves `len` unchanged. -/
theorem C4_overwrite {α : Type} (enc : α → List Nat)
    (dec : List Nat → Option α) (m : Mem) (k : Key) (v1 v2 : α)
    (h2 : dec (enc v2) = some v2) :
    (memGet dec (memSet (memSet m k (enc v1)).2 k (enc v2)).2 k).1 =
      some (some v2) ∧
    (memLen (memSet (memSet m k (enc v1)).2 k (enc v2)).2).1 =
      (memLen (memSet m k (enc v1)).2).1 := by
  constructor
  · simp only [memSet, memGet, assocGet_insert_self]
    rw [h2]
    rfl
  · simp only [memSet, memLen]
    apply length_assocInsert_present
    rw [assocGet_insert_self]
    rfl

/-- Witness for C4 with the `bool` codec, `v1 = false`, `v2 = true`. -/
theorem C4_overwrite_witness :
    (memGet boolFromBytes
      (memSet (memSet [] [97] (boolToBytes false)).2 [97]
        (boolToBytes true)).2 [97]).1 = some (some true) ∧
    (memLen (memSet (memSet [] [97] (boolToBytes false)).2 [97]
        (boolToBytes true)).2).1 =
      (memLen (memSet [] [97] (boolToBytes false)).2).1 :=
  C4_overwrite boolToBytes boolFromBytes [] [97] false true (by decide)

/-- C5: in the memory backend, `set k v` then `delete k` makes `get k` return
`Ok(None)`; `delete` always returns `Ok(())`, and deleting an absent key
leaves `len` unchanged. -/
theorem C5_delete (m : Mem) (k : Key) (bytes : List Nat) {α : Type}
    (dec : List Nat → Option α) (hwf : m.WF) :
    (memGet dec (memDelete (memSet m k bytes).2 k).2 k).1 = some none ∧
    (memDelete m k).1 = Except.ok () ∧
    (assocGet m k = none →
      (memLen (memDelete m k).2).1 = (memLen m).1) := by
  refine ⟨?_, rfl, ?_⟩
  · simp only [memSet, memDelete, memGet]
    rw [assocGet_remove_self _ _ (Mem.WF_insert m k bytes hwf)]
  · intro habs
    simp only [memDelete, memLen]
    rw [assocRemove_absent m k habs]

/-- Witness for C5 on the empty cache, key `"a"`, `u8` codec. -/
theorem C5_delete_witness :
    (memGet (numFromBytes u8Ty)
      (memDelete (memSet [] [97] (numToBytes 1)).2 [97]).2 [97]).1 =
        some none ∧
    (memDelete [] [97]).1 = Except.ok () ∧
    (assocGet [] [97] = none →
      (memLen (memDelete [] [97]).2).1 = (memLen ([] : Mem)).1) :=
  C5_delete [] [97] (numToBytes 1) (numFromBytes u8Ty) (by decide)

/-- C6: `bool::from_bytes` is total and permissive: it never fails, decodes
to `false` exactly when every byte is zero, and to `true` exactly when some
byte is non-zero. -/
theorem C6_bool_decode_total (bytes : List Nat) :
    boolFromBytes bytes ≠ none ∧
    (boolFromBytes bytes = some false ↔ ∀ b ∈ bytes, b = 0) ∧
    (boolFromBytes bytes = some true ↔ ∃ b ∈ bytes, b ≠ 0) := by
  refine ⟨by simp [boolFromBytes], ?_, ?_⟩
  · simp [boolFromBytes, List.all_eq_true]
  · simp [boolFromBytes, List.all_eq_false]

/-- C7: the byte form of a string is its raw UTF-8 bytes, and `String::from_bytes`
succeeds exactly on valid UTF-8 (the encodings of strings), returning the
corresponding string, and fails otherwise. -/
theorem C7_string_utf8 (bytes s : List Nat) :
    stringFromBytes bytes = some s ↔
      ValidString s ∧ stringToBytes s = bytes :=
  utf8Decode_iff bytes s

/-- C8: hex round trip `from_hex (to_hex v) = Ok v` for the built-in numeric,
boolean and string codecs. -/
theorem C8_hex_round_trip (t : NumTy) (v : Int) (hw : 0 < t.width)
    (hw128 : t.width ≤ 128) (hv : t.inRange v) (b : Bool) (s : List Nat)
    (hs : ValidString s) :
    fromHex (numFromBytes t) (toHex numToBytes v) = some v ∧
    fromHex boolFromBytes (toHex boolToBytes b) = some b ∧
    fromHex stringFromBytes (toHex stringToBytes s) = some s := by
  refine ⟨?_, ?_, ?_⟩
  · rw [toHex, fromHex, hexDecode_hexEncode _ (numToBytes_lt v),
      Option.some_bind]
    exact num_round_trip t v hw hw128 hv
  · rw [toHex, fromHex, hexDecode_hexEncode _ (boolToBytes_lt b),
      Option.some_bind]
    exact bool_round_trip b
  · rw [toHex, fromHex,
      hexDecode_hexEncode (stringToBytes s) (utf8Encode_lt s hs),
      Option.some_bind]
    exact string_round_trip s hs

/-- Witness for C8 at `u8`/`v = 5`, `b = true`, and the one-character string
`"h"`. -/
theorem C8_hex_round_trip_witness :
    fromHex (numFromBytes u8Ty) (toHex numToBytes 5) = some 5 ∧
    fromHex boolFromBytes (toHex boolToBytes true) = some true ∧
    fromHex stringFromBytes (toHex stringToBytes [104]) = some [104] :=
  C8_hex_round_trip u8Ty 5 (by decide) (by decide) (by decide) true [104]
    (by decide)

/-- C9: on any payload of at least 16 bytes, the numeric `from_bytes` returns
the leading 16 bytes read big-endian and reduced modulo `2 ^ width` (plain
truncation, twos-complement for signed targets) without error; in
particular the encoding of `256 : u16` decoded at `u8` wraps to 0 and the
encoding of `-1 : i8` decoded at `u16` yields 65535. -/
theorem C9_truncation (t : NumTy) (bytes : List Nat)
    (hlen : 16 ≤ bytes.length) :
    numFromBytes t bytes =
      some (castToTy t (beBytesToNat (bytes.take 16))) ∧
    (t.signed = false →
      numFromBytes t bytes =
        some (((beBytesToNat (bytes.take 16)) % 2 ^ t.width : Nat) : Int)) ∧
    numFromBytes u8Ty (numToBytes 256) = some 0 ∧
    numFromBytes u16Ty (numToBytes (-1)) = some 65535 := by
  refine ⟨?_, ?_, by decide, by decide⟩
  · rw [numFromBytes, if_neg (by omega)]
  · intro hsg
    rw [numFromBytes, if_neg (by omega)]
    simp [castToTy, hsg]

/-- Witness for C9 on the all-0xFF 16-byte payload at `u8`. -/
theorem C9_truncation_witness :
    numFromBytes u8Ty (List.replicate 16 255) =
      some (castToTy u8Ty (beBytesToNat ((List.replicate 16 255).take 16))) ∧
    (u8Ty.signed = false →
      numFromBytes u8Ty (List.replicate 16 255) =
        some (((beBytesToNat ((List.replicate 16 255).take 16)) %
          2 ^ u8Ty.width : Nat) : Int)) ∧
    numFromBytes u8Ty (numToBytes 256) = some 0 ∧
    numFromBytes u16Ty (numToBytes (-1)) = some 65535 :=
  C9_truncation u8Ty (List.replicate 16 255) (by decide)

/-- C10: frame property of the memory backend: `set` and `delete` on key `k`
leave the stored payload of every other key unchanged, and `get` and `len`
return the map exactly as it was. -/
theorem C10_frame (m : Mem) (k k2 : Key) (bytes : List Nat) {α : Type}
    (dec : List Nat → Option α) (hne : k2 ≠ k) :
    assocGet (memSet m k bytes).2 k2 = assocGet m k2 ∧
    assocGet (memDelete m k).2 k2 = assocGet m k2 ∧
    (memGet dec m k).2 = m ∧
    (memLen m).2 = m :=
  ⟨assocGet_insert_ne m k k2 bytes hne, assocGet_remove_ne m k k2 hne,
    rfl, rfl⟩

/-- Witness for C10 with keys `"a"` and `"b"` on the empty cache. -/
theorem C10_frame_witness :
    assocGet (memSet [] [97] (numToBytes 1)).2 [98] = assocGet [] [98] ∧
    assocGet (memDelete [] [97]).2 [98] = assocGet [] [98] ∧
    (memGet (numFromBytes u8Ty) [] [97]).2 = [] ∧
    (memLen ([] : Mem)).2 = [] :=
  C10_frame [] [97] [98] (numToBytes 1) (numFromBytes u8Ty) (by decide)

end CacheAny
